import Mathlib

/-!
# Verification of the qutrit circuit core (`cirq/circuits/circuit.py`)

Shallow embedding of the moment-scheduling and simulation core of the
repository, together with proofs settling the frozen claims about it.

Conventions of the embedding:
* A qubit/site (`ops.QubitId`) is a `Nat` (the position of the qubit in the
  ambient qubit order).
* A numpy matrix is represented by an opaque `Nat` token where only its
  identity matters, and by `Mat3 := List (List ℚ)` (a nested list, mirroring
  `np.array([[...], ...])`) where its entries matter.  Python floats are
  modelled by `ℚ`; complex amplitudes by pairs `ℚ × ℚ`.
* Python exceptions are modelled by `Except`: a function that can raise
  returns `Except Err α`, and raising leaves the caller's data untouched
  exactly as in the source (all the mutating methods below work on a copy
  and commit only on success, following the source).
* `np.random.choice` is modelled by threading the drawn index in as an
  explicit argument (`draw`), the randomness being outside the embedding.
-/

/-- A flattened primitive gate application, as produced by
`_extract_unitaries`: a `(matrix, qubits)` pair.  The first component is an
opaque matrix token, the second the ordered list of qubits it acts on
(`op.qubits`). -/
abbrev Item : Type := Nat × List Nat

/-- One scanning round of `reconstruct_moments` (circuit.py:1400-1412):
walk the remaining list with a set `blocked_qs` of blocked qubits; an item
whose qubits meet the blocked set is deferred to the next round (its qubits
still get blocked, so dependents behind it are deferred too), otherwise it is
admitted to the current moment and its qubits are blocked.  Returns
`(moment, deferred)`.  The Python `set` of blocked qubits is modelled by a
list queried by membership; `blocked_qs.update(qs)` is list append. -/
def reconstructRound (blocked : List Nat) : List Item → List Item × List Item
  | [] => ([], [])
  | it :: rest =>
    let r := reconstructRound (blocked ++ it.2) rest
    if it.2.any (fun q => blocked.contains q) then (r.1, it :: r.2)
    else (it :: r.1, r.2)

/-- The `while len(mat_and_qs_list) > 0` loop of `reconstruct_moments`,
with explicit fuel (each round admits at least the first remaining item, so
`l.length` rounds always suffice; see `reconstructRound_deferred_lt`). -/
def reconstructLoop : Nat → List Item → List (List Item)
  | 0, _ => []
  | _ + 1, [] => []
  | fuel + 1, it :: rest =>
    let r := reconstructRound [] (it :: rest)
    r.1 :: reconstructLoop fuel r.2

/-- `reconstruct_moments` (circuit.py:1397-1413): regroups a flat
`(matrix, qubits)` stream into maximal batches of mutually qubit-disjoint
items, honoring emission order as a dependency order. -/
def reconstruct_moments (l : List Item) : List (List Item) :=
  reconstructLoop l.length l

theorem reconstructRound_lengths (blocked : List Nat) (l : List Item) :
    (reconstructRound blocked l).1.length + (reconstructRound blocked l).2.length
      = l.length := by
  induction l generalizing blocked with
  | nil => simp [reconstructRound]
  | cons it rest ih =>
    simp only [reconstructRound]
    split <;> simp only [List.length_cons] <;> rw [← ih (blocked ++ it.2)] <;> omega

theorem reconstructRound_deferred_lt (it : Item) (rest : List Item) :
    (reconstructRound [] (it :: rest)).2.length < (it :: rest).length := by
  have hfirst : it.2.any (fun q => ([] : List Nat).contains q) = false := by
    simp
  have hlen := reconstructRound_lengths ([] ++ it.2) rest
  simp only [reconstructRound, hfirst, if_false, Bool.false_eq_true, List.length_cons]
  omega

/-- C5 concrete instance: with `U := 10, V := 11, W := 12` and sites
`A := 0, B := 1, C := 2`, the input `[(U,{A,B}), (V,{B}), (W,{C})]` yields
exactly the two batches `[(U,{A,B}), (W,{C})]` and `[(V,{B})]`. -/
theorem reconstruct_moments_three_item_example :
    reconstruct_moments [(10, [0, 1]), (11, [1]), (12, [2])]
      = [[(10, [0, 1]), (12, [2])], [(11, [1])]] := by
  decide

/-- Python's `any([q in blocked_qs for q in qs])` from `reconstruct_moments`. -/
def qsBlocked (qs blocked : List Nat) : Bool := qs.any (fun q => blocked.contains q)

theorem qsBlocked_iff (qs blocked : List Nat) :
    qsBlocked qs blocked = true ↔ ∃ q ∈ qs, q ∈ blocked := by
  simp [qsBlocked]

/-- The qubit sets of two items intersect (the dependency relation of the
conflict-batch reconstruction). -/
def sitesIntersect (a b : Item) : Bool := a.2.any (fun q => b.2.contains q)

theorem sitesIntersect_iff (a b : Item) :
    sitesIntersect a b = true ↔ ∃ q ∈ a.2, q ∈ b.2 := by
  simp [sitesIntersect]

/-- The qubit sets of two items are disjoint. -/
def sitesDisjoint (a b : Item) : Prop := sitesIntersect a b = false

/-- Position of the first occurrence of `a` in `l` (`l.length` if absent). -/
def posOf (a : Item) (l : List Item) : Nat := l.findIdx (fun x => decide (x = a))

/-- Index of the first produced batch containing `a` (`ms.length` if absent). -/
def batchIdx (ms : List (List Item)) (a : Item) : Nat :=
  ms.findIdx (fun m => decide (a ∈ m))

theorem reconstructRound_sublist (blocked : List Nat) (l : List Item) :
    (reconstructRound blocked l).1.Sublist l ∧ (reconstructRound blocked l).2.Sublist l := by
  induction l generalizing blocked with
  | nil => simp [reconstructRound]
  | cons it rest ih =>
    obtain ⟨ih1, ih2⟩ := ih (blocked ++ it.2)
    simp only [reconstructRound]
    split
    · exact ⟨ih1.cons it, ih2.cons₂ it⟩
    · exact ⟨ih1.cons₂ it, ih2.cons it⟩

theorem reconstructRound_perm (blocked : List Nat) (l : List Item) :
    ((reconstructRound blocked l).1 ++ (reconstructRound blocked l).2).Perm l := by
  induction l generalizing blocked with
  | nil => simp [reconstructRound]
  | cons it rest ih =>
    have ihp := ih (blocked ++ it.2)
    simp only [reconstructRound]
    split
    · exact (List.perm_middle).trans (ihp.cons it)
    · exact ihp.cons it

theorem reconstructRound_moment_unblocked (blocked : List Nat) (l : List Item) :
    ∀ x ∈ (reconstructRound blocked l).1, qsBlocked x.2 blocked = false := by
  induction l generalizing blocked with
  | nil => simp [reconstructRound]
  | cons it rest ih =>
    intro x hx
    simp only [reconstructRound] at hx
    split at hx
    · have := ih (blocked ++ it.2) x hx
      rw [Bool.eq_false_iff] at this ⊢
      intro hcon
      apply this
      rw [qsBlocked_iff] at hcon ⊢
      obtain ⟨q, hq1, hq2⟩ := hcon
      exact ⟨q, hq1, List.mem_append_left _ hq2⟩
    · rename_i hcond
      rcases List.mem_cons.mp hx with rfl | hx'
      · exact Bool.eq_false_iff.mpr hcond
      · have := ih (blocked ++ it.2) x hx'
        rw [Bool.eq_false_iff] at this ⊢
        intro hcon
        apply this
        rw [qsBlocked_iff] at hcon ⊢
        obtain ⟨q, hq1, hq2⟩ := hcon
        exact ⟨q, hq1, List.mem_append_left _ hq2⟩

theorem reconstructRound_moment_pairwise (blocked : List Nat) (l : List Item) :
    (reconstructRound blocked l).1.Pairwise sitesDisjoint := by
  induction l generalizing blocked with
  | nil => simp [reconstructRound]
  | cons it rest ih =>
    simp only [reconstructRound]
    split
    · exact ih (blocked ++ it.2)
    · refine List.Pairwise.cons ?_ (ih (blocked ++ it.2))
      intro x hx
      have hub := reconstructRound_moment_unblocked (blocked ++ it.2) rest x hx
      rw [sitesDisjoint, Bool.eq_false_iff]
      intro hcon
      rw [sitesIntersect_iff] at hcon
      obtain ⟨q, hq1, hq2⟩ := hcon
      rw [Bool.eq_false_iff] at hub
      exact hub (qsBlocked_iff _ _ |>.mpr ⟨q, hq2, List.mem_append_right _ hq1⟩)

theorem reconstructRound_defer_of_blocked (blocked : List Nat) (l : List Item)
    (x : Item) (hx : x ∈ l) (hb : qsBlocked x.2 blocked = true) :
    x ∈ (reconstructRound blocked l).2 := by
  induction l generalizing blocked with
  | nil => cases hx
  | cons it rest ih =>
    simp only [reconstructRound]
    rcases List.mem_cons.mp hx with rfl | hx'
    · rw [show (x.2.any fun q => blocked.contains q) = qsBlocked x.2 blocked from rfl, hb]
      simp
    · have hb' : qsBlocked x.2 (blocked ++ it.2) = true := by
        rw [qsBlocked_iff] at hb ⊢
        obtain ⟨q, hq1, hq2⟩ := hb
        exact ⟨q, hq1, List.mem_append_left _ hq2⟩
      have := ih (blocked ++ it.2) hx' hb'
      split
      · exact List.mem_cons_of_mem _ this
      · exact this

theorem reconstructRound_defer_of_conflict (blocked : List Nat)
    (l1 l2 : List Item) (x y : Item) (hy : y ∈ l2)
    (hc : sitesIntersect x y = true) :
    y ∈ (reconstructRound blocked (l1 ++ x :: l2)).2 := by
  induction l1 generalizing blocked with
  | nil =>
    simp only [List.nil_append, reconstructRound]
    have hb : qsBlocked y.2 (blocked ++ x.2) = true := by
      rw [sitesIntersect_iff] at hc
      obtain ⟨q, hq1, hq2⟩ := hc
      exact qsBlocked_iff _ _ |>.mpr ⟨q, hq2, List.mem_append_right _ hq1⟩
    have := reconstructRound_defer_of_blocked (blocked ++ x.2) l2 y hy hb
    split
    · exact List.mem_cons_of_mem _ this
    · exact this
  | cons it rest ih =>
    simp only [List.cons_append, reconstructRound]
    have := ih (blocked ++ it.2)
    split
    · exact List.mem_cons_of_mem _ this
    · exact this

theorem posOf_cons_self (a : Item) (l : List Item) : posOf a (a :: l) = 0 := by
  simp [posOf, List.findIdx_cons]

theorem posOf_cons_ne (a x : Item) (l : List Item) (h : x ≠ a) :
    posOf a (x :: l) = posOf a l + 1 := by
  simp [posOf, List.findIdx_cons, h]

theorem batchIdx_cons_mem (m : List Item) (ms : List (List Item)) (a : Item)
    (h : a ∈ m) : batchIdx (m :: ms) a = 0 := by
  simp [batchIdx, List.findIdx_cons, h]

theorem batchIdx_cons_not_mem (m : List Item) (ms : List (List Item)) (a : Item)
    (h : a ∉ m) : batchIdx (m :: ms) a = batchIdx ms a + 1 := by
  simp [batchIdx, List.findIdx_cons, h]

theorem exists_decomp_of_posOf_lt (l : List Item) (x y : Item)
    (hx : x ∈ l) (hy : y ∈ l) (h : posOf x l < posOf y l) :
    ∃ l1 l2, l = l1 ++ x :: l2 ∧ y ∈ l2 := by
  induction l with
  | nil => cases hx
  | cons z rest ih =>
    by_cases hzx : z = x
    · subst hzx
      refine ⟨[], rest, by simp, ?_⟩
      have hyz : y ≠ z := by
        rintro rfl
        rw [posOf_cons_self] at h
        omega
      exact (List.mem_cons.mp hy).resolve_left hyz
    · have hyz : y ≠ z := by
        rintro rfl
        rw [posOf_cons_self] at h
        omega
      have hx' : x ∈ rest := (List.mem_cons.mp hx).resolve_left (fun hh => hzx hh.symm)
      have hy' : y ∈ rest := (List.mem_cons.mp hy).resolve_left hyz
      rw [posOf_cons_ne x z rest hzx, posOf_cons_ne y z rest (Ne.symm hyz)] at h
      obtain ⟨l1, l2, heq, hyl2⟩ := ih hx' hy' (by omega)
      exact ⟨z :: l1, l2, by simp [heq], hyl2⟩

theorem sublist_posOf_lt {s l : List Item} (hs : s.Sublist l) (hnd : l.Nodup)
    (x y : Item) (hx : x ∈ s) (hy : y ∈ s) (h : posOf x l < posOf y l) :
    posOf x s < posOf y s := by
  induction hs with
  | slnil => cases hx
  | @cons s' l' z hsub ih =>
    have hz : z ∉ l' := (List.nodup_cons.mp hnd).1
    have hxz : x ≠ z := fun hh => hz (hh ▸ hsub.subset hx)
    have hyz : y ≠ z := fun hh => hz (hh ▸ hsub.subset hy)
    rw [posOf_cons_ne x z l' (Ne.symm hxz), posOf_cons_ne y z l' (Ne.symm hyz)] at h
    exact ih (List.nodup_cons.mp hnd).2 hx hy (by omega)
  | @cons₂ s' l' z hsub ih =>
    have hnd' : l'.Nodup := (List.nodup_cons.mp hnd).2
    by_cases hxz : x = z
    · subst hxz
      have hyx : y ≠ x := by
        rintro rfl
        omega
      rw [posOf_cons_self, posOf_cons_ne y x s' (Ne.symm hyx)]
      omega
    · have hyz : y ≠ z := by
        rintro rfl
        rw [posOf_cons_self] at h
        omega
      have hx' : x ∈ s' := (List.mem_cons.mp hx).resolve_left hxz
      have hy' : y ∈ s' := (List.mem_cons.mp hy).resolve_left hyz
      rw [posOf_cons_ne x z l' (Ne.symm hxz), posOf_cons_ne y z l' (Ne.symm hyz)] at h
      rw [posOf_cons_ne x z s' (Ne.symm hxz), posOf_cons_ne y z s' (Ne.symm hyz)]
      have := ih hnd' hx' hy' (by omega)
      omega

theorem reconstructLoop_pairwise (fuel : Nat) (l : List Item) :
    ∀ m ∈ reconstructLoop fuel l, m.Pairwise sitesDisjoint := by
  induction fuel generalizing l with
  | zero => simp [reconstructLoop]
  | succ fuel ih =>
    match l with
    | [] => simp [reconstructLoop]
    | it :: rest =>
      intro m hm
      simp only [reconstructLoop] at hm
      rcases List.mem_cons.mp hm with rfl | hm'
      · exact reconstructRound_moment_pairwise [] (it :: rest)
      · exact ih _ m hm'

theorem reconstructLoop_join_perm (fuel : Nat) (l : List Item)
    (hfuel : l.length ≤ fuel) : ((reconstructLoop fuel l).flatten).Perm l := by
  induction fuel generalizing l with
  | zero =>
    have : l = [] := List.length_eq_zero.mp (by omega)
    simp [this, reconstructLoop]
  | succ fuel ih =>
    match l with
    | [] => simp [reconstructLoop]
    | it :: rest =>
      simp only [reconstructLoop, List.flatten_cons]
      have hd := reconstructRound_deferred_lt it rest
      have hperm := ih (reconstructRound [] (it :: rest)).2
        (by simp only [List.length_cons] at hd hfuel ⊢; omega)
      exact List.Perm.trans (List.Perm.append_left _ hperm)
        (reconstructRound_perm [] (it :: rest))

theorem reconstructLoop_order (fuel : Nat) (l : List Item)
    (hfuel : l.length ≤ fuel) (hnd : l.Nodup) (x y : Item)
    (hx : x ∈ l) (hy : y ∈ l) (hlt : posOf x l < posOf y l)
    (hc : sitesIntersect x y = true) :
    batchIdx (reconstructLoop fuel l) x < batchIdx (reconstructLoop fuel l) y := by
  induction fuel generalizing l with
  | zero =>
    have : l = [] := List.length_eq_zero.mp (by omega)
    subst this; cases hx
  | succ fuel ih =>
    match l, hnd, hx, hy with
    | [], _, hx, _ => cases hx
    | it :: rest, hnd, hx, hy =>
      have hmd := reconstructRound_perm [] (it :: rest)
      have hnd_md : ((reconstructRound [] (it :: rest)).1 ++
          (reconstructRound [] (it :: rest)).2).Nodup :=
        (hmd.nodup_iff).mpr hnd
      obtain ⟨hnd_m, hnd_d, hdisj⟩ := List.nodup_append.mp hnd_md
      obtain ⟨l1, l2, heq, hyl2⟩ := exists_decomp_of_posOf_lt _ x y hx hy hlt
      have hyd : y ∈ (reconstructRound [] (it :: rest)).2 := by
        rw [heq]
        exact reconstructRound_defer_of_conflict [] l1 l2 x y hyl2 hc
      have hym : y ∉ (reconstructRound [] (it :: rest)).1 := fun hmem => hdisj hmem hyd
      simp only [reconstructLoop]
      rw [batchIdx_cons_not_mem _ _ y hym]
      by_cases hxm : x ∈ (reconstructRound [] (it :: rest)).1
      · rw [batchIdx_cons_mem _ _ x hxm]
        omega
      · have hxd : x ∈ (reconstructRound [] (it :: rest)).2 := by
          have : x ∈ (reconstructRound [] (it :: rest)).1 ++
              (reconstructRound [] (it :: rest)).2 := hmd.mem_iff.mpr hx
          exact (List.mem_append.mp this).resolve_left hxm
        rw [batchIdx_cons_not_mem _ _ x hxm]
        have hdlt := reconstructRound_deferred_lt it rest
        have hrec := ih (reconstructRound [] (it :: rest)).2
          (by simp only [List.length_cons] at hdlt hfuel ⊢; omega)
          hnd_d hxd hyd
          (sublist_posOf_lt (reconstructRound_sublist [] (it :: rest)).2 hnd x y hxd hyd hlt)
        omega

/-- C6: `reconstruct_moments` (a) produces batches whose items have pairwise
disjoint qubit sets, (b) emits exactly the input items (the flattened output
is a permutation of the input), and (c) for distinguishable items (no
duplicate `(matrix, qubits)` entries), any two items whose qubit sets
intersect are emitted with the earlier one in a strictly earlier batch, so
their original relative order is preserved. -/
theorem reconstruct_moments_invariants (l : List Item) :
    (∀ m ∈ reconstruct_moments l, m.Pairwise sitesDisjoint) ∧
    ((reconstruct_moments l).flatten).Perm l ∧
    (l.Nodup → ∀ x ∈ l, ∀ y ∈ l, posOf x l < posOf y l →
      sitesIntersect x y = true →
      batchIdx (reconstruct_moments l) x < batchIdx (reconstruct_moments l) y) := by
  refine ⟨reconstructLoop_pairwise l.length l,
    reconstructLoop_join_perm l.length l le_rfl, ?_⟩
  intro hnd x hx y hy hlt hc
  exact reconstructLoop_order l.length l le_rfl hnd x y hx hy hlt hc

/-- Witness for `reconstruct_moments_invariants`: instantiated at the
three-item input of the spec, for the conflicting pair `(U,{A,B})`, `(V,{B})`. -/
theorem reconstruct_moments_invariants_witness :
    ((reconstruct_moments [(10, [0, 1]), (11, [1]), (12, [2])]).flatten).Perm
        [(10, [0, 1]), (11, [1]), (12, [2])] ∧
    batchIdx (reconstruct_moments [(10, [0, 1]), (11, [1]), (12, [2])]) (10, [0, 1]) <
      batchIdx (reconstruct_moments [(10, [0, 1]), (11, [1]), (12, [2])]) (11, [1]) := by
  refine ⟨(reconstruct_moments_invariants _).2.1, ?_⟩
  exact (reconstruct_moments_invariants [(10, [0, 1]), (11, [1]), (12, [2])]).2.2
    (by decide) (10, [0, 1]) (by decide) (11, [1]) (by decide) (by decide) (by decide)

/-- A numpy matrix with rational entries, as a nested list mirroring
`np.array([[...], ...])`. -/
abbrev Mat3 : Type := List (List ℚ)

/-- Errors raised by the noise-channel sampling path. -/
inductive ChanErr : Type where
  | weightSumAssert : ChanErr
  | indexError : ChanErr
deriving DecidableEq

/-- `weighted_draw` (circuit.py:1463-1468): asserts that the weights sum to 1
within the `(0.999, 1.001)` tolerance, then draws a random index below
`len(weights)` via `np.random.choice` (after normalizing the weights, which
changes no support).  The random draw is abstracted into the explicit
argument `draw`; the assertion is the modelled behaviour. -/
def weighted_draw (weights : List ℚ) (draw : Nat) : Except ChanErr Nat :=
  if weights.sum > 999/1000 ∧ weights.sum < 1001/1000 then Except.ok draw
  else Except.error ChanErr.weightSumAssert

/-- The base `NoiseChannel` class (circuit.py:1470-1494): four operator
lists with their weight lists, all plain class attributes.  There is no
constructor-time validation of any kind in the source, so construction is
the plain structure literal and can never fail. -/
structure NoiseChannel : Type where
  single_qutrit_kraus_operators : List Mat3
  single_qutrit_kraus_operator_weights : List ℚ
  two_qutrit_kraus_operators : List Mat3
  two_qutrit_kraus_operator_weights : List ℚ
  idle_channel_operators : List Mat3
  long_idle_channel_weights : List ℚ
  short_idle_channel_weights : List ℚ
deriving DecidableEq

/-- `NoiseChannel.pick_single_qutrit_gate_channel` (circuit.py:1480-1482). -/
def NoiseChannel.pick_single_qutrit_gate_channel (m : NoiseChannel) (draw : Nat) :
    Except ChanErr Mat3 := do
  let i ← weighted_draw m.single_qutrit_kraus_operator_weights draw
  match m.single_qutrit_kraus_operators.get? i with
  | some op => Except.ok op
  | none => Except.error ChanErr.indexError

/-- `NoiseChannel.pick_two_qutrit_gate_channel` (circuit.py:1484-1486). -/
def NoiseChannel.pick_two_qutrit_gate_channel (m : NoiseChannel) (draw : Nat) :
    Except ChanErr Mat3 := do
  let i ← weighted_draw m.two_qutrit_kraus_operator_weights draw
  match m.two_qutrit_kraus_operators.get? i with
  | some op => Except.ok op
  | none => Except.error ChanErr.indexError

/-- `NoiseChannel.pick_long_idle_channel` (circuit.py:1488-1490): draws
against the long-idle weights and indexes the shared idle operator list. -/
def NoiseChannel.pick_long_idle_channel (m : NoiseChannel) (draw : Nat) :
    Except ChanErr Mat3 := do
  let i ← weighted_draw m.long_idle_channel_weights draw
  match m.idle_channel_operators.get? i with
  | some op => Except.ok op
  | none => Except.error ChanErr.indexError

/-- `NoiseChannel.pick_short_idle_channel` (circuit.py:1492-1494). -/
def NoiseChannel.pick_short_idle_channel (m : NoiseChannel) (draw : Nat) :
    Except ChanErr Mat3 := do
  let i ← weighted_draw m.short_idle_channel_weights draw
  match m.idle_channel_operators.get? i with
  | some op => Except.ok op
  | none => Except.error ChanErr.indexError

/-- The idle-operator data of the `GenericQutritErrors` subclass family
(circuit.py:1502-1532, with the concrete operator lists supplied by the
`CurrentSuperconductingQCErrors`/`FutureSuperconductingQCErrors...`
subclasses, circuit.py:1535-1606): a long-idle operator list and a separate
short-idle operator list. -/
structure GenericQutritErrors : Type where
  long_idle_channel_operators : List Mat3
  short_idle_channel_operators : List Mat3
deriving DecidableEq

/-- `GenericQutritErrors.pick_long_idle_channel` (circuit.py:1514-1522):
builds one weight per operator of `long_idle_channel_operators` (the squared
norm of the state after applying that operator to the given site — this
state-dependent number is abstracted as `wf op`), draws an index against
those weights, and then returns `self.short_idle_channel_operators[index]`:
the indexed list is the SHORT one even though the weights came from the
long-idle operator list. -/
def GenericQutritErrors.pick_long_idle_channel (m : GenericQutritErrors)
    (wf : Mat3 → ℚ) (draw : Nat) : Except ChanErr Mat3 := do
  let weights := m.long_idle_channel_operators.map wf
  let i ← weighted_draw weights draw
  match m.short_idle_channel_operators.get? i with
  | some op => Except.ok op
  | none => Except.error ChanErr.indexError

/-- `GenericQutritErrors.pick_short_idle_channel` (circuit.py:1524-1532):
weights from `short_idle_channel_operators`, result indexed from
`long_idle_channel_operators` — the mirror image of the long case. -/
def GenericQutritErrors.pick_short_idle_channel (m : GenericQutritErrors)
    (wf : Mat3 → ℚ) (draw : Nat) : Except ChanErr Mat3 := do
  let weights := m.short_idle_channel_operators.map wf
  let i ← weighted_draw weights draw
  match m.long_idle_channel_operators.get? i with
  | some op => Except.ok op
  | none => Except.error ChanErr.indexError

/-- `np.eye(3)`: the 3x3 identity, first operator of every idle list. -/
def eye3 : Mat3 := [[1, 0, 0], [0, 1, 0], [0, 0, 1]]

/-- The shape of the damping operator `[[0, g**0.5, 0], [0,0,0], [0,0,0]]`
from the concrete idle lists, with a rational stand-in for `gamma**0.5`. -/
def dampOp (g : ℚ) : Mat3 := [[0, g, 0], [0, 0, 0], [0, 0, 0]]

/-- A concrete `GenericQutritErrors`-family model shaped like
`CurrentSuperconductingQCErrors` (circuit.py:1535-1549): the long and short
idle operator lists are distinct because the long and short decay rates
differ.  Entries are rational stand-ins for the irrational source constants;
only list identity and distinctness matter to the claims. -/
def sampleGenericModel : GenericQutritErrors :=
  { long_idle_channel_operators := [eye3, dampOp (3/1000)]
    short_idle_channel_operators := [eye3, dampOp (1/1000)] }

/-- C2 (falsified on the code): on a `GenericQutritErrors`-family model whose
short and long idle operator lists differ, `pick_long_idle_channel` with
draw index 1 returns the damping operator of the SHORT-idle list — an
operator that is not an element of the long-idle operator set whose weights
determined the draw.  (`wf` is the constant weight `1/2`, making the weight
sum pass the tolerance assertion.) -/
theorem pick_long_idle_channel_returns_short_operator :
    sampleGenericModel.pick_long_idle_channel (fun _ => 1/2) 1
        = Except.ok (dampOp (1/1000)) ∧
    dampOp (1/1000) ∉ sampleGenericModel.long_idle_channel_operators := by
  refine ⟨?_, ?_⟩ <;>
    simp [GenericQutritErrors.pick_long_idle_channel, weighted_draw,
      sampleGenericModel, eye3, dampOp, List.sum_cons, Bind.bind, Except.bind] <;>
    norm_num

/-- The tolerance window checked by the `weighted_draw` assertion. -/
def weightSumOK (w : List ℚ) : Prop := w.sum > 999/1000 ∧ w.sum < 1001/1000

instance (w : List ℚ) : Decidable (weightSumOK w) := by
  unfold weightSumOK; infer_instance

theorem weighted_draw_of_sumOK (w : List ℚ) (draw : Nat) (h : weightSumOK w) :
    weighted_draw w draw = Except.ok draw := by
  rw [weighted_draw, if_pos ⟨h.1, h.2⟩]

theorem weighted_draw_of_not_sumOK (w : List ℚ) (draw : Nat) (h : ¬ weightSumOK w) :
    weighted_draw w draw = Except.error ChanErr.weightSumAssert := by
  rw [weighted_draw, if_neg (fun hc => h ⟨hc.1, hc.2⟩)]

/-- C3 amended: the weight-sum tolerance is enforced by the assertion inside
`weighted_draw`, i.e. at every sampling call, and nowhere at construction
(`NoiseChannel` construction is a plain structure literal that cannot fail):
a model whose relevant weight list sums to 1 within `(0.999, 1.001)` never
produces the weight-sum failure from the corresponding sampling operation,
and a model whose relevant weight list is outside the window produces the
weight-sum failure at every corresponding sampling call. -/
theorem weight_sum_checked_at_sampling (m : NoiseChannel) (draw : Nat) :
    (weightSumOK m.single_qutrit_kraus_operator_weights →
      m.pick_single_qutrit_gate_channel draw ≠ Except.error ChanErr.weightSumAssert) ∧
    (weightSumOK m.two_qutrit_kraus_operator_weights →
      m.pick_two_qutrit_gate_channel draw ≠ Except.error ChanErr.weightSumAssert) ∧
    (weightSumOK m.long_idle_channel_weights →
      m.pick_long_idle_channel draw ≠ Except.error ChanErr.weightSumAssert) ∧
    (weightSumOK m.short_idle_channel_weights →
      m.pick_short_idle_channel draw ≠ Except.error ChanErr.weightSumAssert) ∧
    (¬ weightSumOK m.single_qutrit_kraus_operator_weights →
      m.pick_single_qutrit_gate_channel draw = Except.error ChanErr.weightSumAssert) ∧
    (¬ weightSumOK m.two_qutrit_kraus_operator_weights →
      m.pick_two_qutrit_gate_channel draw = Except.error ChanErr.weightSumAssert) ∧
    (¬ weightSumOK m.long_idle_channel_weights →
      m.pick_long_idle_channel draw = Except.error ChanErr.weightSumAssert) ∧
    (¬ weightSumOK m.short_idle_channel_weights →
      m.pick_short_idle_channel draw = Except.error ChanErr.weightSumAssert) := by
  refine ⟨fun h => ?_, fun h => ?_, fun h => ?_, fun h => ?_,
    fun h => ?_, fun h => ?_, fun h => ?_, fun h => ?_⟩
  · simp only [NoiseChannel.pick_single_qutrit_gate_channel,
      weighted_draw_of_sumOK _ draw h, Bind.bind, Except.bind]
    split <;> simp
  · simp only [NoiseChannel.pick_two_qutrit_gate_channel,
      weighted_draw_of_sumOK _ draw h, Bind.bind, Except.bind]
    split <;> simp
  · simp only [NoiseChannel.pick_long_idle_channel,
      weighted_draw_of_sumOK _ draw h, Bind.bind, Except.bind]
    split <;> simp
  · simp only [NoiseChannel.pick_short_idle_channel,
      weighted_draw_of_sumOK _ draw h, Bind.bind, Except.bind]
    split <;> simp
  · simp only [NoiseChannel.pick_single_qutrit_gate_channel,
      weighted_draw_of_not_sumOK _ draw h, Bind.bind, Except.bind]
  · simp only [NoiseChannel.pick_two_qutrit_gate_channel,
      weighted_draw_of_not_sumOK _ draw h, Bind.bind, Except.bind]
  · simp only [NoiseChannel.pick_long_idle_channel,
      weighted_draw_of_not_sumOK _ draw h, Bind.bind, Except.bind]
  · simp only [NoiseChannel.pick_short_idle_channel,
      weighted_draw_of_not_sumOK _ draw h, Bind.bind, Except.bind]

/-- A `NoiseChannel` whose long-idle weights sum to 1/2: the claim predicts a
fatal failure when this model is constructed, but construction is a plain
attribute record in the source and succeeds. -/
def malformedWeightsModel : NoiseChannel :=
  { single_qutrit_kraus_operators := [eye3]
    single_qutrit_kraus_operator_weights := [1]
    two_qutrit_kraus_operators := [eye3]
    two_qutrit_kraus_operator_weights := [1]
    idle_channel_operators := [eye3]
    long_idle_channel_weights := [1/2]
    short_idle_channel_weights := [1] }

/-- C3 counterexample: the model with weight list `[1/2]` is constructed
without any failure (it is a value), and the weight-sum failure instead
occurs at sampling time: `pick_long_idle_channel` on it returns the
weight-sum assertion error — contradicting "fatal at model construction,
never at sampling time". -/
theorem malformed_weights_fail_at_sampling_time :
    malformedWeightsModel.long_idle_channel_weights = [1/2] ∧
    malformedWeightsModel.pick_long_idle_channel 0
      = Except.error ChanErr.weightSumAssert := by
  constructor
  · rfl
  · have h : ¬ weightSumOK malformedWeightsModel.long_idle_channel_weights := by
      rw [weightSumOK]
      norm_num [malformedWeightsModel]
    exact (weight_sum_checked_at_sampling malformedWeightsModel 0).2.2.2.2.2.2.1 h

/-- Witness for `weight_sum_checked_at_sampling`: on the model whose
short-idle weight list is `[1]` (sum inside the tolerance window), the
short-idle sampling operation does not produce the weight-sum failure. -/
theorem weight_sum_checked_at_sampling_witness :
    weightSumOK [(1 : ℚ)] ∧
    malformedWeightsModel.pick_short_idle_channel 0
      ≠ Except.error ChanErr.weightSumAssert := by
  have h : weightSumOK [(1 : ℚ)] := by rw [weightSumOK]; norm_num
  exact ⟨h, (weight_sum_checked_at_sampling malformedWeightsModel 0).2.2.2.1 h⟩

/-- Decidable equality of `Except` results, used to evaluate the embedded
functions on concrete inputs. -/
instance {ε α : Type} [DecidableEq ε] [DecidableEq α] : DecidableEq (Except ε α) :=
  fun x y =>
    match x, y with
    | Except.error a, Except.error b => decidable_of_iff (a = b) (by simp)
    | Except.error _, Except.ok _ => Decidable.isFalse (by simp)
    | Except.ok _, Except.error _ => Decidable.isFalse (by simp)
    | Except.ok a, Except.ok b => decidable_of_iff (a = b) (by simp)

/-- An operation (`ops.Operation`): an opaque gate token, the ordered qubits
it acts on, and whether its gate is a measurement gate.  (The `Operation`
class itself lives outside `circuit.py`; this is its data model from the
spec: "an ordered tuple of distinct Sites plus a reference to a Gate", with
the one capability `circuit.py`'s scheduling code queries, measurement-ness.) -/
structure OpM : Type where
  gate : Nat
  qubits : List Nat
  isMeas : Bool
deriving DecidableEq

/-- A `Moment`: its tuple of operations.  (The `Moment` class lives outside
`circuit.py`; per the spec it is "an unordered batch of Operations" carrying
an `operations` tuple, which is all the code below touches.) -/
abbrev MomentM : Type := List OpM

/-- A `Circuit`'s moment list (`self._moments`). -/
abbrev CircuitM : Type := List MomentM

/-- Exceptions raised by the circuit-mutation path. -/
inductive CircErr : Type where
  | valueError : CircErr
  | indexError : CircErr
  | deviceReject : CircErr
deriving DecidableEq

/-- One iteration of the `batch_remove` loop (circuit.py:790-797): look up
moment `i` of the working copy (`IndexError` when out of range, as for
Python list indexing), raise `ValueError` if `op` is not among its
operations, otherwise replace moment `i` by the moment without `op`
(`Moment(old_op for old_op in ... if op != old_op)`). -/
def removeOne (ms : CircuitM) (i : Nat) (op : OpM) : Except CircErr CircuitM :=
  match ms[i]? with
  | none => Except.error CircErr.indexError
  | some m =>
    if op ∈ m then
      Except.ok (ms.set i (m.filter (fun o => decide (o ≠ op))))
    else Except.error CircErr.valueError

/-- The full `for i, op in removals` loop of `batch_remove`, threading the
working copy. -/
def removeAll : CircuitM → List (Nat × OpM) → Except CircErr CircuitM
  | ms, [] => Except.ok ms
  | ms, (i, op) :: rest => do
    let ms' ← removeOne ms i op
    removeAll ms' rest

/-- `Circuit.batch_remove` (circuit.py:773-799): `copy = self.copy()` (which
re-validates the current circuit against the device, via
`Circuit.__init__`), the removal loop on the copy, then
`self._device.validate_circuit(copy)` and the commit
`self._moments = copy._moments`.  The device's `validate_circuit` hook is
the boolean parameter `dev`; an `Except.error` result models an exception
propagating with the live circuit unchanged (the loop only ever mutates the
copy), and `Except.ok c` models the commit of the rebuilt moments `c`. -/
def batch_remove (dev : CircuitM → Bool) (ms : CircuitM)
    (removals : List (Nat × OpM)) : Except CircErr CircuitM :=
  if dev ms then
    match removeAll ms removals with
    | Except.error e => Except.error e
    | Except.ok c =>
      if dev c then Except.ok c else Except.error CircErr.deviceReject
  else Except.error CircErr.deviceReject

/-- The moments of `ms` with, in moment `j0 + k`, every operation listed
against that moment in `removals` filtered out: the expected result of a
successful `batch_remove`. -/
def removedMoments (removals : List (Nat × OpM)) : Nat → CircuitM → CircuitM
  | _, [] => []
  | j, m :: rest =>
    m.filter (fun o => !decide ((j, o) ∈ removals)) :: removedMoments removals (j + 1) rest

theorem removeOne_ok_elim (ms : CircuitM) (i : Nat) (op : OpM) (ms' : CircuitM)
    (h : removeOne ms i op = Except.ok ms') :
    ∃ m, ms[i]? = some m ∧ op ∈ m ∧
      ms' = ms.set i (m.filter (fun o => decide (o ≠ op))) := by
  unfold removeOne at h
  split at h
  · exact absurd h (by simp)
  · rename_i m hm
    split at h
    · rename_i hmem
      exact ⟨m, hm, hmem, (Except.ok.injEq _ _ |>.mp h).symm⟩
    · exact absurd h (by simp)

/-- A removal pair that is not satisfiable against `ms`: either its moment
index is out of range, or the operation is absent from that moment. -/
def badPair (ms : CircuitM) (p : Nat × OpM) : Prop :=
  ∀ m, ms[p.1]? = some m → p.2 ∉ m

theorem badPair_preserved (ms ms' : CircuitM) (i : Nat) (op : OpM)
    (h : removeOne ms i op = Except.ok ms') (p : Nat × OpM)
    (hbad : badPair ms p) : badPair ms' p := by
  obtain ⟨m, hm, _, rfl⟩ := removeOne_ok_elim ms i op ms' h
  intro m' hm'
  by_cases hij : i = p.1
  · subst hij
    by_cases hlen : p.1 < ms.length
    · rw [List.getElem?_set, if_pos rfl, if_pos hlen] at hm'
      cases hm'
      intro hmem
      exact hbad m hm (List.mem_filter.mp hmem).1
    · rw [List.getElem?_set, if_pos rfl, if_neg hlen] at hm'
      cases hm'
  · rw [List.getElem?_set_ne hij] at hm'
    exact hbad m' hm'

theorem removeAll_error_of_bad (removals : List (Nat × OpM)) (ms : CircuitM)
    (hbad : ∃ p ∈ removals, badPair ms p) :
    ∃ e, removeAll ms removals = Except.error e := by
  induction removals generalizing ms with
  | nil => simp at hbad
  | cons hd rest ih =>
    obtain ⟨i, op⟩ := hd
    match hrem : removeOne ms i op with
    | Except.error e =>
      exact ⟨e, by simp [removeAll, hrem, Bind.bind, Except.bind]⟩
    | Except.ok ms' =>
      have hnothd : ¬ badPair ms (i, op) := by
        obtain ⟨m, hm, hmem, _⟩ := removeOne_ok_elim ms i op ms' hrem
        intro hb
        exact hb m hm hmem
      obtain ⟨p, hp, hpbad⟩ := hbad
      have hprest : p ∈ rest := by
        rcases List.mem_cons.mp hp with rfl | h
        · exact absurd hpbad hnothd
        · exact h
      obtain ⟨e, he⟩ := ih ms' ⟨p, hprest, badPair_preserved ms ms' i op hrem p hpbad⟩
      exact ⟨e, by simp [removeAll, hrem, Bind.bind, Except.bind, he]⟩

theorem removedMoments_getElem? (removals : List (Nat × OpM)) :
    ∀ (j0 : Nat) (ms : CircuitM) (k : Nat),
      (removedMoments removals j0 ms)[k]?
        = (ms[k]?).map (fun m => m.filter (fun o => !decide ((j0 + k, o) ∈ removals))) := by
  intro j0 ms
  induction ms generalizing j0 with
  | nil => intro k; simp [removedMoments]
  | cons m rest ih =>
    intro k
    match k with
    | 0 => simp [removedMoments]
    | k + 1 =>
      simp only [removedMoments, List.getElem?_cons_succ, ih (j0 + 1) k]
      have : j0 + 1 + k = j0 + (k + 1) := by omega
      rw [this]

theorem removeAll_ok_of_valid (removals : List (Nat × OpM)) (ms : CircuitM)
    (hnd : removals.Nodup)
    (hvalid : ∀ p ∈ removals, ∃ m, ms[p.1]? = some m ∧ p.2 ∈ m) :
    removeAll ms removals = Except.ok (removedMoments removals 0 ms) := by
  induction removals generalizing ms with
  | nil =>
    have : removedMoments [] 0 ms = ms := by
      apply List.ext_getElem?
      intro k
      simp [removedMoments_getElem?]
    rw [removeAll, this]
  | cons hd rest ih =>
    obtain ⟨i, op⟩ := hd
    obtain ⟨m, hm, hmem⟩ := hvalid (i, op) (List.mem_cons_self _ _)
    have hlt : i < ms.length := by
      rcases List.getElem?_eq_some_iff.mp hm with ⟨h, _⟩
      exact h
    have hrem : removeOne ms i op
        = Except.ok (ms.set i (m.filter (fun o => decide (o ≠ op)))) := by
      rw [removeOne, hm]
      simp [hmem]
    have hheadnotin : (i, op) ∉ rest := (List.nodup_cons.mp hnd).1
    have hvalid' : ∀ p ∈ rest,
        ∃ m', (ms.set i (m.filter (fun o => decide (o ≠ op))))[p.1]? = some m'
          ∧ p.2 ∈ m' := by
      intro p hp
      obtain ⟨m2, hm2, hmem2⟩ := hvalid p (List.mem_cons_of_mem _ hp)
      by_cases hij : i = p.1
      · subst hij
        have hm2m : m2 = m := by rw [hm] at hm2; cases hm2; rfl
        subst hm2m
        refine ⟨m2.filter (fun o => decide (o ≠ op)), ?_, ?_⟩
        · rw [List.getElem?_set, if_pos rfl, if_pos hlt]
        · rw [List.mem_filter]
          refine ⟨hmem2, ?_⟩
          simp only [decide_eq_true_eq]
          rintro rfl
          exact hheadnotin hp
      · exact ⟨m2, by rw [List.getElem?_set_ne hij]; exact hm2, hmem2⟩
    have hrec := ih _ (List.nodup_cons.mp hnd).2 hvalid'
    have hexp : removedMoments rest 0 (ms.set i (m.filter (fun o => decide (o ≠ op))))
        = removedMoments ((i, op) :: rest) 0 ms := by
      apply List.ext_getElem?
      intro k
      rw [removedMoments_getElem?, removedMoments_getElem?]
      simp only [Nat.zero_add]
      by_cases hik : i = k
      · subst hik
        rw [List.getElem?_set, if_pos rfl, if_pos hlt, hm]
        simp only [Option.map_some', List.filter_filter, Option.some.injEq]
        apply List.filter_congr
        intro o _
        by_cases ho : o = op <;> by_cases hr : (i, o) ∈ rest <;>
          simp [ho, hr, List.mem_cons, Prod.ext_iff]
      · rw [List.getElem?_set_ne hik]
        cases hok : ms[k]? with
        | none => simp
        | some mk =>
          simp only [Option.map_some', Option.some.injEq]
          apply List.filter_congr
          intro o _
          have hiff : ((k, o) ∈ (i, op) :: rest) ↔ ((k, o) ∈ rest) := by
            constructor
            · intro h
              rcases List.mem_cons.mp h with heq | h'
              · cases heq; exact absurd rfl hik
              · exact h'
            · exact List.mem_cons_of_mem _
          simp [hiff]
    calc removeAll ms ((i, op) :: rest)
        = removeAll (ms.set i (m.filter (fun o => decide (o ≠ op)))) rest := by
          simp [removeAll, hrem, Bind.bind, Except.bind]
      _ = Except.ok (removedMoments ((i, op) :: rest) 0 ms) := by rw [hrec, hexp]

/-- C4 amended: `batch_remove` is all-or-nothing.  (a) If some listed pair
references an operation not present in the indicated moment of the pre-call
circuit (or an out-of-range moment), the call raises — and, the loop having
only ever touched the private copy, returns no rebuilt moments: the live
circuit is unchanged.  (b) If every listed pair is present, no pair is
listed twice, and device revalidation accepts both the pre-call circuit and
the rebuilt moments, the call commits exactly the moments with all listed
operations removed. -/
theorem batch_remove_all_or_nothing (dev : CircuitM → Bool) (ms : CircuitM)
    (removals : List (Nat × OpM)) :
    ((∃ p ∈ removals, badPair ms p) →
      ∃ e, batch_remove dev ms removals = Except.error e) ∧
    (dev ms = true → removals.Nodup →
      (∀ p ∈ removals, ∃ m, ms[p.1]? = some m ∧ p.2 ∈ m) →
      dev (removedMoments removals 0 ms) = true →
      batch_remove dev ms removals
        = Except.ok (removedMoments removals 0 ms)) := by
  constructor
  · intro hbad
    by_cases hdev : dev ms = true
    · obtain ⟨e, he⟩ := removeAll_error_of_bad removals ms hbad
      exact ⟨e, by rw [batch_remove, if_pos hdev, he]⟩
    · exact ⟨CircErr.deviceReject,
        by rw [batch_remove, if_neg (by simpa using hdev)]⟩
  · intro hdev hnd hvalid hdev'
    rw [batch_remove, if_pos hdev, removeAll_ok_of_valid removals ms hnd hvalid]
    simp [hdev']

/-- The concrete operation `X` on qubit 0 used in the C4 counterexample. -/
def opA : OpM := { gate := 0, qubits := [0], isMeas := false }

/-- C4 counterexample: on the one-moment circuit `[[opA]]` with the
unconstrained device, the removal list `[(0, opA), (0, opA)]` references in
every pair an operation present in the indicated moment of the pre-call
circuit, yet `batch_remove` raises `ValueError` (the second removal no
longer finds `opA` in the working copy) instead of removing the listed
operation — refuting the claim that presence of every listed pair (plus
device acceptance) suffices for the removals to be committed. -/
theorem batch_remove_duplicate_pair_raises :
    (∀ p ∈ [(0, opA), (0, opA)], ∃ m, [[opA]][p.1]? = some m ∧ p.2 ∈ m) ∧
    batch_remove (fun _ => true) [[opA]] [(0, opA), (0, opA)]
      = Except.error CircErr.valueError := by
  decide

/-- Witness for `batch_remove_all_or_nothing`: a successful two-removal call
on a two-moment circuit commits exactly the moments with the listed
operations removed. -/
theorem batch_remove_all_or_nothing_witness :
    batch_remove (fun _ => true)
        [[opA, { gate := 1, qubits := [1], isMeas := false }],
         [{ gate := 2, qubits := [0], isMeas := false }]]
        [(0, opA), (1, { gate := 2, qubits := [0], isMeas := false })]
      = Except.ok [[{ gate := 1, qubits := [1], isMeas := false }], []] := by
  have h := (batch_remove_all_or_nothing (fun _ => true)
      [[opA, { gate := 1, qubits := [1], isMeas := false }],
       [{ gate := 2, qubits := [0], isMeas := false }]]
      [(0, opA), (1, { gate := 2, qubits := [0], isMeas := false })]).2
    (by decide) (by decide) (by decide) (by decide)
  rw [h]
  decide

/-- `Moment.operates_on(qubits)`: whether any operation of the moment
touches any of the given qubits.  Modelled from the spec: the `Moment` class
is outside `circuit.py`; §3 defines a Moment as a batch of operations over
sites, and `next_moments_operating_on`'s docstring (circuit.py:334-346)
fixes this hook's meaning as "the moment touches the qubit". -/
def momentOperatesOn (m : MomentM) (qs : List Nat) : Bool :=
  m.any (fun op => op.qubits.any (fun q => qs.contains q))

/-- `Circuit.next_moment_operating_on(qubits, start_moment_index)` with the
default unlimited `max_distance` (circuit.py:299-328): the index of the
earliest moment at or after `start` that operates on any of `qs`, else
`None`. -/
def next_moment_operating_on (ms : CircuitM) (qs : List Nat) (start : Nat) :
    Option Nat :=
  (List.range ms.length).find?
    (fun i => decide (start ≤ i) && momentOperatesOn (ms.getD i []) qs)

/-- `findall_operations(MeasurementGate.is_measurement)` (circuit.py:433-451
as used at circuit.py:476-479): all `(moment_index, operation)` pairs of
measurement operations, in moment order then in-moment order. -/
def findall_measurements (ms : CircuitM) : List (Nat × OpM) :=
  ms.enum.flatMap (fun p => (p.2.filter (fun op => op.isMeas)).map (fun op => (p.1, op)))

/-- `Circuit.are_all_measurements_terminal` (circuit.py:476-479). -/
def are_all_measurements_terminal (ms : CircuitM) : Bool :=
  (findall_measurements ms).all
    (fun p => (next_moment_operating_on ms p.2.qubits (p.1 + 1)).isNone)

/-- `any(ops.MeasurementGate.is_measurement(op) for op in
self.all_operations())`, the first guard of the two only-unitary entry
points (circuit.py:943-945, 1019-1021). -/
def containsMeasurement (ms : CircuitM) : Bool :=
  ms.any (fun m => m.any (fun op => op.isMeas))

/-- The claim-side reading of "a non-terminal measurement": some measurement
operation in moment `i` is followed by a later moment `j` containing an
operation sharing one of its qubits. -/
def hasNonTerminalMeasurement (ms : CircuitM) : Prop :=
  ∃ i op j mj, op ∈ ms.getD i [] ∧ op.isMeas = true ∧ i < j ∧
    ms[j]? = some mj ∧ momentOperatesOn mj op.qubits = true

theorem mem_findall_measurements (ms : CircuitM) (i : Nat) (op : OpM) :
    (i, op) ∈ findall_measurements ms
      ↔ ∃ m, ms[i]? = some m ∧ op ∈ m ∧ op.isMeas = true := by
  constructor
  · intro h
    simp only [findall_measurements, List.mem_flatMap] at h
    obtain ⟨⟨j, m⟩, hmem, hmap⟩ := h
    simp only [List.mem_map, List.mem_filter] at hmap
    obtain ⟨op', ⟨hop', hmeas⟩, heq⟩ := hmap
    cases heq
    exact ⟨m, List.mk_mem_enum_iff_getElem?.mp hmem, hop', hmeas⟩
  · rintro ⟨m, hm, hop, hmeas⟩
    simp only [findall_measurements, List.mem_flatMap]
    refine ⟨(i, m), List.mk_mem_enum_iff_getElem?.mpr hm, ?_⟩
    simp only [List.mem_map, List.mem_filter]
    exact ⟨op, ⟨hop, hmeas⟩, rfl⟩

theorem next_moment_operating_on_isSome (ms : CircuitM) (qs : List Nat)
    (start : Nat) :
    (next_moment_operating_on ms qs start).isSome
      ↔ ∃ j mj, start ≤ j ∧ ms[j]? = some mj ∧ momentOperatesOn mj qs = true := by
  rw [next_moment_operating_on, List.find?_isSome]
  constructor
  · rintro ⟨j, hjr, hp⟩
    rw [Bool.and_eq_true, decide_eq_true_eq] at hp
    have hjlen : j < ms.length := List.mem_range.mp hjr
    refine ⟨j, ms[j], hp.1, List.getElem?_eq_getElem hjlen, ?_⟩
    have : ms.getD j [] = ms[j] := by
      rw [List.getD_eq_getElem?_getD, List.getElem?_eq_getElem hjlen]
      rfl
    rw [← this]
    exact hp.2
  · rintro ⟨j, mj, hstart, hj, hopr⟩
    have hjlen : j < ms.length := by
      rcases List.getElem?_eq_some_iff.mp hj with ⟨h, _⟩
      exact h
    refine ⟨j, List.mem_range.mpr hjlen, ?_⟩
    rw [Bool.and_eq_true, decide_eq_true_eq]
    refine ⟨hstart, ?_⟩
    have : ms.getD j [] = mj := by
      rw [List.getD_eq_getElem?_getD, hj]
      rfl
    rw [this]
    exact hopr

/-- The claim-side "has a non-terminal measurement" coincides exactly with
the code's `are_all_measurements_terminal` returning `False`. -/
theorem hasNonTerminal_iff_not_terminal (ms : CircuitM) :
    hasNonTerminalMeasurement ms ↔ are_all_measurements_terminal ms = false := by
  constructor
  · rintro ⟨i, op, j, mj, hop, hmeas, hij, hj, hopr⟩
    have hilen : i < ms.length := by
      by_contra hnot
      rw [List.getD_eq_getElem?_getD, List.getElem?_eq_none (by omega)] at hop
      cases hop
    have hi : ms[i]? = some (ms.getD i []) := by
      rw [List.getD_eq_getElem?_getD, List.getElem?_eq_getElem hilen]
      rfl
    rw [Bool.eq_false_iff]
    intro hall
    rw [are_all_measurements_terminal, List.all_eq_true] at hall
    have hmem := (mem_findall_measurements ms i op).mpr ⟨ms.getD i [], hi, hop, hmeas⟩
    have := hall (i, op) hmem
    rw [Option.isNone_iff_eq_none] at this
    have hsome : (next_moment_operating_on ms op.qubits (i + 1)).isSome :=
      (next_moment_operating_on_isSome ms op.qubits (i + 1)).mpr
        ⟨j, mj, by omega, hj, hopr⟩
    rw [this] at hsome
    cases hsome
  · intro hall
    rw [are_all_measurements_terminal, Bool.eq_false_iff] at hall
    have : ¬ ∀ p ∈ findall_measurements ms,
        (next_moment_operating_on ms p.2.qubits (p.1 + 1)).isNone = true := by
      intro hforall
      exact hall (List.all_eq_true.mpr hforall)
    push_neg at this
    obtain ⟨⟨i, op⟩, hmem, hnone⟩ := this
    obtain ⟨m, hm, hop, hmeas⟩ := (mem_findall_measurements ms i op).mp hmem
    have hsome : (next_moment_operating_on ms op.qubits (i + 1)).isSome := by
      cases hv : next_moment_operating_on ms op.qubits (i + 1) with
      | none => exact absurd (by rw [hv]; rfl) hnone
      | some j => rfl
    obtain ⟨j, mj, hstart, hj, hopr⟩ :=
      (next_moment_operating_on_isSome ms op.qubits (i + 1)).mp hsome
    have hgd : ms.getD i [] = m := by
      rw [List.getD_eq_getElem?_getD, hm]
      rfl
    exact ⟨i, op, j, mj, hgd ▸ hop, hmeas, by omega, hj, hopr⟩

/-- One elementary step performed by the simulation loop of
`_apply_unitary_circuit` (circuit.py:1365-1392) on the state/buffer pair:
the application of a gate's unitary, the sampling-and-application of a gate
error channel, the sampling-and-application of an idle channel on one site
(with `isLong` recording which weighted distribution was sampled), and the
renormalization `buffer /= np.linalg.norm(buffer)` of the working tensor. -/
inductive Ev : Type where
  | gate : Nat → List Nat → Ev
  | gateError : List Nat → Ev
  | idle : Bool → Nat → Ev
  | renorm : Ev
deriving DecidableEq

/-- `any([len(qs) == 2 for mat, qs in moment])` (circuit.py:1385): whether
some gate of the batch acted on two sites. -/
def momentHasTwoSiteGate (moment : List Item) : Bool :=
  moment.any (fun it => it.2.length == 2)

/-- The steps performed for one batch (`for moment in moments` body,
circuit.py:1365-1392): every gate of the batch is applied and followed by a
sampled gate-error channel (the single/two-qutrit selection by
`matrix.size`, an orthogonal numeric detail, is not re-modelled here); then
`for index in range(len(qubits))` one idle channel per site of the
simulation is sampled — the long distribution exactly when
`any([len(qs) == 2 for mat, qs in moment])` — applied, and the buffer
renormalized after each idle application. -/
def momentTrace (nq : Nat) (moment : List Item) : List Ev :=
  (moment.flatMap (fun it => [Ev.gate it.1 it.2, Ev.gateError it.2]))
    ++ ((List.range nq).flatMap
        (fun s => [Ev.idle (momentHasTwoSiteGate moment) s, Ev.renorm]))

/-- The full event trace of the simulation loop: the flattened batches from
`reconstruct_moments`, each contributing its `momentTrace`. -/
def circuitTrace (nq : Nat) (extracted : List Item) : List Ev :=
  (reconstruct_moments extracted).flatMap (momentTrace nq)

/-- Simulation-level errors of the two only-unitary entry points. -/
inductive SimErr : Type where
  | valueErrorMeasurement : SimErr
  | valueErrorNonTerminal : SimErr
  | valueErrorReshape : SimErr
  | assertNoiseModelIsNone : SimErr
  | indexError : SimErr
deriving DecidableEq

/-- Which of the simulation errors are Python `ValueError`s. -/
def SimErr.isValueError : SimErr → Bool
  | SimErr.valueErrorMeasurement => true
  | SimErr.valueErrorNonTerminal => true
  | SimErr.valueErrorReshape => true
  | _ => false

/-- `_apply_unitary_circuit` (circuit.py:1330-1394), at the level of the
steps it performs: its first statement is `assert noise_model is not None`
(circuit.py:1360), so with no noise model every call fails immediately;
with a noise model it batches the extracted `(matrix, qubits)` stream via
`reconstruct_moments` and performs the per-batch steps of `momentTrace`.
The extracted stream (`_extract_unitaries(circuit.all_operations(), ext)`,
whose recursive gate decomposition lives outside this model) is the
argument `extracted`; `nq = len(qubits)`. -/
def apply_unitary_circuit (noise_model : Option NoiseChannel) (nq : Nat)
    (extracted : List Item) : Except SimErr (List Ev) :=
  match noise_model with
  | none => Except.error SimErr.assertNoiseModelIsNone
  | some _ => Except.ok (circuitTrace nq extracted)

/-- `Circuit.to_unitary_matrix` (circuit.py:906-959): the two measurement
guards, then the identity start tensor `np.eye(1 << n)` reshaped to rank
`2 * n` (not further modelled, since the call never gets past the assert),
then `_apply_unitary_circuit(self, state, qs, ext, dtype)` — which passes
NO noise model, so `noise_model` inside is its default `None`. -/
def to_unitary_matrix (ms : CircuitM) (ignore_terminal_measurements : Bool)
    (nq : Nat) (extracted : List Item) : Except SimErr (List Ev) :=
  if ignore_terminal_measurements = false ∧ containsMeasurement ms = true then
    Except.error SimErr.valueErrorMeasurement
  else if are_all_measurements_terminal ms = false then
    Except.error SimErr.valueErrorNonTerminal
  else
    apply_unitary_circuit none nq extracted

/-- The per-site level count `cirq.QUDIT_LEVELS`.  Modelled from the spec:
the constant itself is defined outside `circuit.py`; per §3 the per-site
dimension is D = 3 in the qutrit-extended variant that this source tree is
(all its matrices are 3x3), and the driver script builds `3 ** n` states. -/
def QUDIT_LEVELS : Nat := 3

/-- A complex amplitude, with exact rational real and imaginary parts
standing in for the float components of `np.complex128`. -/
abbrev GC : Type := ℚ × ℚ

/-- Complex conjugate. -/
def GC.conj (z : GC) : GC := (z.1, -z.2)

/-- Complex multiplication. -/
def GC.mul (z w : GC) : GC := (z.1 * w.1 - z.2 * w.2, z.1 * w.2 + z.2 * w.1)

/-- `np.linalg.norm(z) ** 2` for a complex scalar `z`: its squared modulus. -/
def GC.normSq (z : GC) : ℚ := z.1 * z.1 + z.2 * z.2

/-- `np.vdot(v, w)`: the inner product conjugating the first argument. -/
def vdot (v w : List GC) : GC :=
  (List.zipWith (fun a b => GC.mul (GC.conj a) b) v w).foldl
    (fun acc z => (acc.1 + z.1, acc.2 + z.2)) (0, 0)

/-- Python's `int(s, D)` on a digit string, as a fold over the digits. -/
def intParse (D : Nat) (ds : List Nat) : Nat :=
  ds.foldl (fun a d => a * D + d) 0

/-- `int((n - 1) * '1' + str(last), cirq.QUDIT_LEVELS)`: the value of the
base-`D` digit string made of `n - 1` ones followed by the digit `last`
(circuit.py:1038-1040). -/
def idxTarget (D n last : Nat) : Nat :=
  intParse D (List.replicate (n - 1) 1 ++ [last])

/-- The hardcoded target construction of `apply_unitary_effect_to_state`
(circuit.py:1037-1040): copy the initial state and swap the amplitudes at
positions `i` and `j` (the Python three-line `tmp` swap; both reads happen
before either write). -/
def swapAmps (v : List GC) (i j : Nat) : List GC :=
  (v.set i (v.getD j (0, 0))).set j (v.getD i (0, 0))

/-- `Circuit.apply_unitary_effect_to_state` (circuit.py:961-1048), on the
state-vector branch of `initial_state`: the two measurement guards; then
`target_output_state` is built from the initial state by swapping the
amplitudes at the two indices `int((n-1)*'1' + '0', D)` and
`int((n-1)*'1' + '1', D)` (an `IndexError` if those indices exceed the
state length); then `state.shape = (cirq.QUDIT_LEVELS,) * n`
(circuit.py:1042), which raises a numpy `ValueError` whenever the supplied
state vector's length is not `D ** n`; then `_apply_unitary_circuit` runs
(failing its `assert noise_model is not None` when no noise model was
passed) — its numeric output is abstracted as `sim noise_model initial` —
and the pair
`(np.linalg.norm(np.vdot(result, target_output_state)) ** 2, result)` is
returned. -/
def apply_unitary_effect_to_state (D : Nat) (ms : CircuitM)
    (ignore_terminal_measurements : Bool) (noise_model : Option NoiseChannel)
    (n : Nat) (initial : List GC)
    (sim : Option NoiseChannel → List GC → List GC) :
    Except SimErr (ℚ × List GC) :=
  if ignore_terminal_measurements = false ∧ containsMeasurement ms = true then
    Except.error SimErr.valueErrorMeasurement
  else if are_all_measurements_terminal ms = false then
    Except.error SimErr.valueErrorNonTerminal
  else if idxTarget D n 0 < initial.length ∧ idxTarget D n 1 < initial.length then
    let target := swapAmps initial (idxTarget D n 0) (idxTarget D n 1)
    if initial.length = D ^ n then
      match noise_model with
      | none => Except.error SimErr.assertNoiseModelIsNone
      | some _ =>
        let result := sim noise_model initial
        Except.ok (GC.normSq (vdot result target), result)
    else Except.error SimErr.valueErrorReshape
  else Except.error SimErr.indexError

/-- C1 (falsified on the code): for every circuit passing the measurement
guards (only terminal measurements, which the default
`ignore_terminal_measurements=True` skips), `to_unitary_matrix` does NOT
return the circuit's unitary matrix: it always fails, because
`_apply_unitary_circuit`'s first statement is
`assert noise_model is not None` (circuit.py:1360) while
`to_unitary_matrix` has no noise-model parameter and passes none
(circuit.py:958). -/
theorem to_unitary_matrix_always_asserts (ms : CircuitM) (nq : Nat)
    (extracted : List Item)
    (hterm : are_all_measurements_terminal ms = true) :
    to_unitary_matrix ms true nq extracted
      = Except.error SimErr.assertNoiseModelIsNone := by
  rw [to_unitary_matrix, if_neg (by simp), if_neg (by simp [hterm])]
  rfl

/-- Witness for `to_unitary_matrix_always_asserts`: even the empty circuit
(no operations at all, so trivially simulable with or without noise) fails
the noise-model assertion. -/
theorem to_unitary_matrix_always_asserts_witness :
    to_unitary_matrix [] true 0 [] = Except.error SimErr.assertNoiseModelIsNone :=
  to_unitary_matrix_always_asserts [] 0 [] rfl

/-- C7: requesting only-unitary evaluation (`to_unitary_matrix` or
`apply_unitary_effect_to_state`) on a circuit with a non-terminal
measurement raises a `ValueError`; when all measurements are terminal and
`ignore_terminal_measurements` is set, this failure does not occur: neither
entry point raises either measurement `ValueError`.  For `to_unitary_matrix`
no post-guard `ValueError` exists at all (its only remaining failure is the
missing-noise-model assertion of C1); `apply_unitary_effect_to_state` can
still fail post-guard — index error, the reshape `ValueError` of
circuit.py:1042 for a mis-sized state vector, or the noise assertion — but
never with the measurement guards' errors. -/
theorem nonterminal_measurement_guard (ms : CircuitM) (ig : Bool) (nq : Nat)
    (extracted : List Item) (D n : Nat) (noise_model : Option NoiseChannel)
    (initial : List GC) (sim : Option NoiseChannel → List GC → List GC) :
    (hasNonTerminalMeasurement ms →
      (∃ e, to_unitary_matrix ms ig nq extracted = Except.error e
        ∧ e.isValueError = true) ∧
      (∃ e, apply_unitary_effect_to_state D ms ig noise_model n initial sim
        = Except.error e ∧ e.isValueError = true)) ∧
    (are_all_measurements_terminal ms = true → ig = true →
      (∀ e, to_unitary_matrix ms ig nq extracted = Except.error e →
        e.isValueError = false) ∧
      (∀ e, apply_unitary_effect_to_state D ms ig noise_model n initial sim
        = Except.error e →
        e ≠ SimErr.valueErrorMeasurement ∧ e ≠ SimErr.valueErrorNonTerminal)) := by
  constructor
  · intro hnt
    have hfalse := (hasNonTerminal_iff_not_terminal ms).mp hnt
    constructor
    · by_cases hc : ig = false ∧ containsMeasurement ms = true
      · exact ⟨SimErr.valueErrorMeasurement,
          by rw [to_unitary_matrix, if_pos hc], rfl⟩
      · exact ⟨SimErr.valueErrorNonTerminal,
          by rw [to_unitary_matrix, if_neg hc, if_pos hfalse], rfl⟩
    · by_cases hc : ig = false ∧ containsMeasurement ms = true
      · exact ⟨SimErr.valueErrorMeasurement,
          by rw [apply_unitary_effect_to_state, if_pos hc], rfl⟩
      · exact ⟨SimErr.valueErrorNonTerminal,
          by rw [apply_unitary_effect_to_state, if_neg hc, if_pos hfalse], rfl⟩
  · intro hterm hig
    have hg1 : ¬ (ig = false ∧ containsMeasurement ms = true) := by simp [hig]
    have hg2 : ¬ (are_all_measurements_terminal ms = false) := by simp [hterm]
    constructor
    · intro e he
      rw [to_unitary_matrix, if_neg hg1, if_neg hg2] at he
      rw [apply_unitary_circuit] at he
      cases he
      rfl
    · intro e he
      rw [apply_unitary_effect_to_state, if_neg hg1, if_neg hg2] at he
      split at he
      · split at he
        · cases noise_model with
          | none =>
            simp only at he
            cases he
            exact ⟨by decide, by decide⟩
          | some nm =>
            simp only at he
            cases he
        · cases he
          exact ⟨by decide, by decide⟩
      · cases he
        exact ⟨by decide, by decide⟩

/-- Witness for `nonterminal_measurement_guard`: a measurement on qubit 0 in
moment 0 followed by a gate on qubit 0 in moment 1 is a non-terminal
measurement, and `to_unitary_matrix` on that circuit raises a `ValueError`. -/
theorem nonterminal_measurement_guard_witness :
    ∃ e, to_unitary_matrix
        [[{ gate := 0, qubits := [0], isMeas := true }],
         [{ gate := 1, qubits := [0], isMeas := false }]] true 1 []
      = Except.error e ∧ e.isValueError = true := by
  refine ((nonterminal_measurement_guard
      [[{ gate := 0, qubits := [0], isMeas := true }],
       [{ gate := 1, qubits := [0], isMeas := false }]]
      true 1 [] 3 1 none [] (fun _ v => v)).1 ?_).1
  exact ⟨0, { gate := 0, qubits := [0], isMeas := true }, 1,
    [{ gate := 1, qubits := [0], isMeas := false }],
    by decide, rfl, by omega, rfl, by decide⟩

/-- Whether an event is the idle-channel application on site `s`. -/
def Ev.isIdleOn (s : Nat) : Ev → Bool
  | Ev.idle _ s' => s' == s
  | _ => false

/-- Whether an event is an idle-channel application. -/
def Ev.isIdle : Ev → Bool
  | Ev.idle _ _ => true
  | _ => false

/-- Whether an event is a gate-unitary application. -/
def Ev.isGate : Ev → Bool
  | Ev.gate _ _ => true
  | _ => false

theorem mem_gatesPart_not_idle (moment : List Item) (e : Ev)
    (h : e ∈ moment.flatMap (fun it => [Ev.gate it.1 it.2, Ev.gateError it.2])) :
    e.isIdle = false ∧ Ev.isIdleOn s e = false := by
  rw [List.mem_flatMap] at h
  obtain ⟨it, _, hmem⟩ := h
  simp only [List.mem_cons, List.not_mem_nil, or_false] at hmem
  rcases hmem with rfl | rfl
  · exact ⟨rfl, rfl⟩
  · exact ⟨rfl, rfl⟩

theorem mem_idlesPart_not_gate (sites : List Nat) (b : Bool) (e : Ev)
    (h : e ∈ sites.flatMap (fun s => [Ev.idle b s, Ev.renorm])) :
    e.isGate = false := by
  rw [List.mem_flatMap] at h
  obtain ⟨s', _, hmem⟩ := h
  simp only [List.mem_cons, List.not_mem_nil, or_false] at hmem
  rcases hmem with rfl | rfl
  · exact rfl
  · exact rfl

theorem idlesPart_countP (b : Bool) (s : Nat) :
    ∀ (sites : List Nat), sites.Nodup →
      ((sites.flatMap (fun s' => [Ev.idle b s', Ev.renorm])).countP (Ev.isIdleOn s))
        = if s ∈ sites then 1 else 0 := by
  intro sites
  induction sites with
  | nil => intro _; simp
  | cons a rest ih =>
    intro hnd
    rw [List.flatMap_cons, List.countP_append, ih (List.nodup_cons.mp hnd).2]
    have hpair : (([Ev.idle b a, Ev.renorm]).countP (Ev.isIdleOn s))
        = if s = a then 1 else 0 := by
      by_cases hsa : s = a
      · subst hsa
        simp [List.countP_cons, Ev.isIdleOn]
      · simp [List.countP_cons, Ev.isIdleOn, hsa]
        exact fun h => hsa h.symm
    rw [hpair]
    by_cases hsa : s = a
    · subst hsa
      have : s ∉ rest := (List.nodup_cons.mp hnd).1
      simp [this]
    · simp only [List.mem_cons]
      by_cases hsr : s ∈ rest
      · simp [hsr, hsa]
      · simp [hsr, hsa]

theorem idlesPart_renorm_follows (b : Bool) :
    ∀ (sites : List Nat) (k : Nat) (e : Ev),
      ((sites.flatMap (fun s' => [Ev.idle b s', Ev.renorm]))[k]? = some e) →
      e.isIdle = true →
      ((sites.flatMap (fun s' => [Ev.idle b s', Ev.renorm]))[k + 1]? = some Ev.renorm) := by
  intro sites
  induction sites with
  | nil => intro k e h _; simp at h
  | cons a rest ih =>
    intro k e h hidle
    rw [List.flatMap_cons] at h ⊢
    match k with
    | 0 => simp only [List.cons_append, List.getElem?_cons_succ, List.getElem?_cons_zero]
    | 1 =>
      simp only [List.cons_append, List.getElem?_cons_succ,
        List.getElem?_cons_zero] at h
      cases h
      cases hidle
    | k + 2 =>
      simp only [List.cons_append, List.getElem?_cons_succ] at h ⊢
      exact ih k e h hidle

/-- C8: during noisy simulation (a noise model present, so the assertion of
C1 passes), the full trace is the per-batch traces of the batches from
`reconstruct_moments`, and within each batch: after the gate applications,
exactly one idle-channel operator is sampled and applied for every site of
the simulation (`s < nq`, including sites untouched by the batch); every
idle sampling in the batch uses the long-idle distribution exactly when
some gate of the batch acted on two sites; every idle application is
immediately followed by the renormalization of the working tensor; and
every idle event comes after every gate application of the batch. -/
theorem idle_channels_per_batch (nm : NoiseChannel) (nq : Nat)
    (extracted : List Item) :
    (apply_unitary_circuit (some nm) nq extracted
      = Except.ok (circuitTrace nq extracted)) ∧
    (∀ moment ∈ reconstruct_moments extracted, ∀ s, s < nq →
      ((momentTrace nq moment).countP (Ev.isIdleOn s) = 1) ∧
      (∀ b s', Ev.idle b s' ∈ momentTrace nq moment →
        (b = true ↔ ∃ it ∈ moment, it.2.length = 2)) ∧
      (∀ (k : Nat) (e : Ev), (momentTrace nq moment)[k]? = some e →
        e.isIdle = true → (momentTrace nq moment)[k + 1]? = some Ev.renorm) ∧
      (∀ (k k' : Nat) (e e' : Ev), (momentTrace nq moment)[k]? = some e →
        e.isGate = true → (momentTrace nq moment)[k']? = some e' →
        e'.isIdle = true → k < k')) := by
  refine ⟨rfl, ?_⟩
  intro moment _ s hs
  set G := moment.flatMap (fun it => [Ev.gate it.1 it.2, Ev.gateError it.2]) with hG
  set I := (List.range nq).flatMap
      (fun s' => [Ev.idle (momentHasTwoSiteGate moment) s', Ev.renorm]) with hI
  have htrace : momentTrace nq moment = G ++ I := rfl
  refine ⟨?_, ?_, ?_, ?_⟩
  · rw [htrace, List.countP_append]
    have hzero : G.countP (Ev.isIdleOn s) = 0 :=
      List.countP_eq_zero.mpr
        (fun e he => by simp [(mem_gatesPart_not_idle moment e he).2])
    rw [hzero, idlesPart_countP _ s (List.range nq) (List.nodup_range nq)]
    simp [List.mem_range.mpr hs]
  · intro b s' hmem
    rw [htrace, List.mem_append] at hmem
    rcases hmem with hmem | hmem
    · have := (mem_gatesPart_not_idle (s := 0) moment _ hmem).1
      cases this
    · rw [List.mem_flatMap] at hmem
      obtain ⟨s'', _, hmem2⟩ := hmem
      simp only [List.mem_cons, List.not_mem_nil, or_false] at hmem2
      rcases hmem2 with heq | heq
      · cases heq
        rw [momentHasTwoSiteGate, List.any_eq_true]
        constructor
        · rintro ⟨it, hit, hlen⟩
          exact ⟨it, hit, by simpa using hlen⟩
        · rintro ⟨it, hit, hlen⟩
          exact ⟨it, hit, by simpa using hlen⟩
      · cases heq
  · intro k e hk hidle
    rw [htrace] at hk ⊢
    by_cases hklen : k < G.length
    · rw [List.getElem?_append_left hklen] at hk
      have := (mem_gatesPart_not_idle (s := 0) moment e (List.getElem?_mem hk)).1
      rw [hidle] at this
      cases this
    · have hle : G.length ≤ k := by omega
      rw [List.getElem?_append_right hle] at hk
      rw [List.getElem?_append_right (by omega)]
      have harith : k + 1 - G.length = (k - G.length) + 1 := by omega
      rw [harith]
      exact idlesPart_renorm_follows _ (List.range nq) (k - G.length) e hk hidle
  · intro k k' e e' hk hgate hk' hidle
    have hklen : k < G.length := by
      by_contra hnot
      rw [htrace, List.getElem?_append_right (by omega)] at hk
      have := mem_idlesPart_not_gate (List.range nq) _ e (List.getElem?_mem hk)
      rw [hgate] at this
      cases this
    have hk'len : G.length ≤ k' := by
      by_contra hnot
      rw [htrace, List.getElem?_append_left (by omega)] at hk'
      have := (mem_gatesPart_not_idle (s := 0) moment e' (List.getElem?_mem hk')).1
      rw [hidle] at this
      cases this
    omega

/-- Witness for `idle_channels_per_batch`: in the simulation of the
two-item stream `[(9, [0]), (81, [0, 1])]` on two sites, the first batch is
`[(9, [0])]` and its trace applies exactly one idle channel on site 0. -/
theorem idle_channels_per_batch_witness :
    (momentTrace 2 [(9, [0])]).countP (Ev.isIdleOn 0) = 1 := by
  exact ((idle_channels_per_batch malformedWeightsModel 2
      [(9, [0]), (81, [0, 1])]).2 [(9, [0])] (by decide) 0 (by decide)).1

/-- Python `list.insert(index, x)` semantics: a negative index counts from
the end, and out-of-range indices clamp to the ends; insertion never raises. -/
def pyListInsert {α : Type} (l : List α) (index : Int) (x : α) : List α :=
  let pos : Nat :=
    if index < 0 then (max 0 ((l.length : Int) + index)).toNat
    else min index.toNat l.length
  l.take pos ++ x :: l.drop pos

/-- The `isinstance(moment_or_operation_tree, Moment)` branch of
`Circuit.insert` (circuit.py:562-565): validate the moment against the
device, splice it into `self._moments` with `list.insert`, and return
`index + 1` — all before the `0 <= index <= len(self._moments)` bounds
check at circuit.py:567, which this branch never reaches. -/
def insertMoment (dev : MomentM → Bool) (ms : CircuitM) (index : Int)
    (m : MomentM) : Except CircErr (CircuitM × Int) :=
  if dev m then Except.ok (pyListInsert ms index m, index + 1)
  else Except.error CircErr.deviceReject

/-- C9: when `insert` receives a `Moment`, the bounds check is skipped: for
every integer index — also out-of-range ones — no `IndexError` is raised;
the moment is device-validated and spliced in with Python list-insertion
semantics (length grows by one, the moment is present, indices at or above
the length append at the end, indices at or below the negated length
prepend at the front), and `index + 1` is returned. -/
theorem insert_moment_skips_bounds_check (dev : MomentM → Bool)
    (ms : CircuitM) (index : Int) (m : MomentM) (hdev : dev m = true) :
    insertMoment dev ms index m
      = Except.ok (pyListInsert ms index m, index + 1) ∧
    (pyListInsert ms index m).length = ms.length + 1 ∧
    m ∈ pyListInsert ms index m ∧
    ((ms.length : Int) ≤ index → pyListInsert ms index m = ms ++ [m]) ∧
    (index ≤ -(ms.length : Int) → pyListInsert ms index m = m :: ms) := by
  refine ⟨by rw [insertMoment, if_pos hdev], ?_, ?_, ?_, ?_⟩
  · rw [pyListInsert]
    have hpos : (if index < 0 then (max 0 ((ms.length : Int) + index)).toNat
        else min index.toNat ms.length) ≤ ms.length := by
      split
      · omega
      · omega
    simp only [List.length_append, List.length_cons, List.length_take,
      List.length_drop]
    omega
  · rw [pyListInsert]
    exact List.mem_append_right _ (List.mem_cons_self _ _)
  · intro hge
    rw [pyListInsert]
    have hneg : ¬ index < 0 := by omega
    rw [if_neg hneg]
    have hmin : min index.toNat ms.length = ms.length := by omega
    rw [hmin, List.take_length, List.drop_length]
  · intro hle
    have hpos : (if index < 0 then (max 0 ((ms.length : Int) + index)).toNat
        else min index.toNat ms.length) = 0 := by
      split
      · omega
      · omega
    rw [pyListInsert]
    simp only [hpos, List.take_zero, List.drop_zero, List.nil_append]

/-- Witness for `insert_moment_skips_bounds_check`: inserting an empty
moment at index `-7` into a one-moment circuit raises nothing, prepends the
moment, and returns `-6`. -/
theorem insert_moment_skips_bounds_check_witness :
    insertMoment (fun _ => true) [[opA]] (-7) []
      = Except.ok ([[], [opA]], -6) := by
  have h := insert_moment_skips_bounds_check (fun _ => true) [[opA]] (-7) [] rfl
  rw [h.1, h.2.2.2.2 (by norm_num)]
  norm_num

theorem intParse_append_digit (D : Nat) (ds : List Nat) (d : Nat) :
    intParse D (ds ++ [d]) = intParse D ds * D + d := by
  rw [intParse, intParse, List.foldl_append]
  rfl

theorem intParse_replicate_one_bound (D : Nat) (hD : 2 ≤ D) :
    ∀ k : Nat, intParse D (List.replicate k 1) + 1 ≤ D ^ k := by
  intro k
  induction k with
  | zero => simp [intParse]
  | succ k ih =>
    rw [List.replicate_succ' k 1, intParse_append_digit]
    have hmul : (intParse D (List.replicate k 1) + 1) * D ≤ D ^ k * D :=
      Nat.mul_le_mul_right D ih
    rw [Nat.add_mul, Nat.one_mul] at hmul
    rw [pow_succ]
    omega

theorem idxTarget_lt (D n : Nat) (hD : 2 ≤ D) (hn : 1 ≤ n) (last : Nat)
    (hlast : last ≤ 1) : idxTarget D n last < D ^ n := by
  rw [idxTarget, intParse_append_digit]
  have hbound := intParse_replicate_one_bound D hD (n - 1)
  have hmul : (intParse D (List.replicate (n - 1) 1) + 1) * D ≤ D ^ (n - 1) * D :=
    Nat.mul_le_mul_right D hbound
  rw [Nat.add_mul, Nat.one_mul] at hmul
  have hpow : D ^ (n - 1) * D = D ^ n := by
    rw [← pow_succ]
    congr 1
    omega
  omega

/-- C10: whenever `apply_unitary_effect_to_state` is called with a noise
model, on a terminal-measurements-only circuit with
`ignore_terminal_measurements` set and a state vector of the full dimension
`D ^ n` (with at least one site), it returns a PAIR — the fidelity and the
final state, never the state alone — and the fidelity is exactly the
squared modulus of the inner product of the simulated final state with the
fixed hardcoded target: the initial state with the amplitudes at the
base-`D` digit strings `1...10` and `1...11` swapped.  The result shape and
the target are independent of the circuit, of the noise model, and of the
simulated dynamics (`sim` is universally quantified). -/
theorem apply_unitary_effect_returns_fidelity_pair (D n : Nat) (hD : 2 ≤ D)
    (hn : 1 ≤ n) (ms : CircuitM) (ig : Bool) (nm : NoiseChannel)
    (initial : List GC) (hlen : initial.length = D ^ n)
    (sim : Option NoiseChannel → List GC → List GC)
    (hterm : are_all_measurements_terminal ms = true) (hig : ig = true) :
    apply_unitary_effect_to_state D ms ig (some nm) n initial sim
      = Except.ok
          (GC.normSq (vdot (sim (some nm) initial)
            (swapAmps initial (idxTarget D n 0) (idxTarget D n 1))),
           sim (some nm) initial) := by
  have h0 : idxTarget D n 0 < initial.length := by
    rw [hlen]
    exact idxTarget_lt D n hD hn 0 (by omega)
  have h1 : idxTarget D n 1 < initial.length := by
    rw [hlen]
    exact idxTarget_lt D n hD hn 1 (by omega)
  rw [apply_unitary_effect_to_state, if_neg (by simp [hig]),
    if_neg (by simp [hterm]), if_pos ⟨h0, h1⟩, if_pos hlen]

/-- Witness for `apply_unitary_effect_returns_fidelity_pair`: one
three-level site, initial state `|0>`, identity dynamics.  The target swaps
the amplitudes at indices 0 and 1, so the returned fidelity is 0 and the
returned state is the (unchanged) input state. -/
theorem apply_unitary_effect_returns_fidelity_pair_witness :
    apply_unitary_effect_to_state QUDIT_LEVELS [] true
        (some malformedWeightsModel) 1 [(1, 0), (0, 0), (0, 0)]
        (fun _ v => v)
      = Except.ok (0, [(1, 0), (0, 0), (0, 0)]) := by
  have h := apply_unitary_effect_returns_fidelity_pair QUDIT_LEVELS 1
    (by decide) (by decide) [] true malformedWeightsModel
    [(1, 0), (0, 0), (0, 0)] (by decide) (fun _ v => v) rfl rfl
  rw [h]
  norm_num [vdot, swapAmps, GC.normSq, GC.mul, GC.conj, idxTarget, intParse,
    QUDIT_LEVELS, List.set, Prod.ext_iff]
